import Mathlib

/-!
Shallow embedding of the rust-automate recognizer: the token model and
`Token::from_string` (src/parser.rs), the rule graph (src/rules/mod.rs), the
rule store (src/store.rs), the two-pass grammar loader `Grammar::to_store`
(src/grammar.rs), and the backtracking recognizer `Parser::process` /
`Parser::process_rule_set` / `Parser::parse` (src/parser.rs).

Modelling conventions:
- Machine state that Rust expresses with `Arc<Mutex<...>>` sharing is expressed
  by name resolution through the store: a link step holds the referenced
  RuleSet's name and the recognizer looks it up in the (frozen) store, which is
  observationally the same as dereferencing the shared handle.
- Rust panics (`unwrap` on `None`/`Err`, out-of-bounds indexing) are modelled
  as `Option.none` results in the loader and as the `PRes.panic` outcome in the
  recognizer.
- The recognizer can diverge on link-cyclic grammars, so it takes a fuel
  parameter; running out of fuel is the `PRes.out` outcome.
- The `HashMap` backing the store has an unspecified value-iteration order, so
  `get_all_rules` takes the iteration order (a list of keys) as a parameter;
  `Store.hash_iter` says which orders a `HashMap` can actually produce.
-/

/-- Token kinds of the fixed lexer (src/parser.rs, `enum Token`). -/
inductive Token where
  | Contact
  | Options
  | Identifier
  | Number
  | End
deriving DecidableEq, Repr

/-- One item yielded by the logos lexer: `Result<Token, ()>`. -/
abbrev LexTok := Except Unit Token

deriving instance DecidableEq for Except

/-- Outcome of a recognizer call: a returned boolean, a Rust panic, or
recursion exceeding the modelling fuel (the Rust code would not terminate
within that depth). -/
inductive PRes where
  | ok (b : Bool)
  | panic
  | out
deriving DecidableEq, Repr

/-- A step of a rule (src/rules/mod.rs, `struct RuleStep`): an optional
terminal token and an optional reference to another rule set. The Rust `next`
field holds `Option<Arc<Mutex<RuleSet>>>`; here it holds the referenced set's
name, resolved through the store. -/
structure RuleStep where
  token : Option Token
  next : Option String
deriving DecidableEq, Repr

/-- A rule alternative: an ordered sequence of steps (src/rules/mod.rs,
`struct Rule`). -/
structure Rule where
  steps : List RuleStep
deriving DecidableEq, Repr

/-- An ordered disjunction of rules (src/rules/mod.rs, `struct RuleSet`). -/
structure RuleSet where
  rules : List Rule
deriving DecidableEq, Repr

/-- The rule store (src/store.rs, `struct Store`): a map from set name to
RuleSet. The Rust field is a `HashMap`; its key-value contents are modelled as
an association list in insertion order, and the map's unspecified iteration
order is supplied separately where it matters. -/
structure Store where
  sets : List (String × RuleSet)
deriving DecidableEq, Repr

/-- `Store::new` (src/store.rs): the empty store. -/
def Store.new : Store := ⟨[]⟩

/-- `Store::add_rule_set` (src/store.rs): `HashMap::insert` semantics — it
replaces the value of an existing key and otherwise adds the pair. -/
def Store.add_rule_set (s : Store) (name : String) (rs : RuleSet) : Store :=
  if s.sets.any (fun p => p.1 == name) then
    ⟨s.sets.map (fun p => if p.1 == name then (name, rs) else p)⟩
  else
    ⟨s.sets ++ [(name, rs)]⟩

/-- `Store::get_rule_set` (src/store.rs): lookup by name. -/
def Store.get_rule_set (s : Store) (name : String) : Option RuleSet :=
  (s.sets.find? (fun p => p.1 == name)).map (fun p => p.2)

/-- `Store::get_all_rules` (src/store.rs): concatenate the rules of every
RuleSet, iterating `self.sets.values()`. The `HashMap` yields its values in an
unspecified order, so the order is a parameter `iter` (the sequence of keys
the map yields). -/
def Store.get_all_rules (s : Store) (iter : List String) : List Rule :=
  iter.flatMap (fun n =>
    match s.get_rule_set n with
    | some rs => rs.rules
    | none => [])

/-- The iteration orders a `HashMap` over `s.sets` can produce: some
permutation of its keys. -/
def Store.hash_iter (s : Store) (iter : List String) : Prop :=
  iter.Perm (s.sets.map Prod.fst)

/-- `Token::from_string` (src/parser.rs): the terminal-name lookup, written as
the source's sequential string match; the catch-all arm panics
(`panic!("Invalid token")`), modelled as `none`. -/
def Token.from_string (s : String) : Option Token :=
  if s = "Contact" then some Token.Contact
  else if s = "Rate" then some Token.Options
  else if s = "Delay" then some Token.Options
  else if s = "Identifier" then some Token.Identifier
  else if s = "Number" then some Token.Number
  else if s = "End" then some Token.End
  else none

/-- A grammar rule of the declarative description (src/grammar.rs,
`struct GrammarRule`). -/
structure GrammarRule where
  terminals : List String
  non_terminal : Option String
deriving DecidableEq, Repr

/-- A named set of grammar rules (src/grammar.rs, `struct GrammarSet`). -/
structure GrammarSet where
  name : String
  rules : List GrammarRule
deriving DecidableEq, Repr

/-- The declarative grammar description (src/grammar.rs, `struct Grammar`). -/
structure Grammar where
  sets : List GrammarSet
deriving DecidableEq, Repr

/-- `GrammarRule::to_rule_without_non_terminal` (src/grammar.rs): decode each
terminal name into a terminal step; an unknown name is fatal (`none`). -/
def GrammarRule.to_rule_without_non_terminal (gr : GrammarRule) : Option Rule :=
  (gr.terminals.mapM (fun t =>
    (Token.from_string t).map (fun tok => RuleStep.mk (some tok) none))).map Rule.mk

/-- `GrammarSet::to_rule_set_without_non_terminal` (src/grammar.rs). -/
def GrammarSet.to_rule_set_without_non_terminal (gs : GrammarSet) : Option RuleSet :=
  (gs.rules.mapM GrammarRule.to_rule_without_non_terminal).map RuleSet.mk

/-- One append of pass 2 of `Grammar::to_store` (src/grammar.rs):
`store_rule_set.rules[index].steps. ... .append(vec![RuleStep{token: None,
next: Some(rule_set)}])`. Indexing out of bounds is a Rust panic (`none`). -/
def RuleSet.append_link (rs : RuleSet) (i : Nat) (nt : String) : Option RuleSet :=
  match rs.rules[i]? with
  | none => none
  | some r => some ⟨rs.rules.set i ⟨r.steps ++ [⟨none, some nt⟩]⟩⟩

/-- The pass-2 inner loop of `Grammar::to_store` (src/grammar.rs) over one
grammar set's rules: rules without a non-terminal are skipped; for a rule with
non-terminal `nt`, the referenced set is fetched (`unwrap`: `none` if absent)
and a link step is appended to the rule at position `i` of the stored set,
where `i` counts only the non-terminal-carrying rules seen so far. -/
def link_rules : Store → String → List GrammarRule → Nat → Option Store
  | store, _, [], _ => some store
  | store, set_name, gr :: rest, i =>
    match gr.non_terminal with
    | none => link_rules store set_name rest i
    | some nt =>
      match store.get_rule_set nt with
      | none => none
      | some _ =>
        match store.get_rule_set set_name with
        | none => none
        | some rs =>
          match rs.append_link i nt with
          | none => none
          | some rs2 => link_rules (store.add_rule_set set_name rs2) set_name rest (i + 1)

/-- Pass 2 of `Grammar::to_store` for one grammar set: the Rust code first
fetches `store.get_rule_set(set.name).unwrap()` (a panic if absent), then runs
the inner loop with the parallel index starting at 0. -/
def GrammarSet.link_into (gs : GrammarSet) (store : Store) : Option Store :=
  match store.get_rule_set gs.name with
  | none => none
  | some _ => link_rules store gs.name gs.rules 0

/-- The first loop of `Grammar::to_store` (src/grammar.rs): insert the
terminal-only skeleton of every grammar set under its name. -/
def pass1 (sets : List GrammarSet) (st : Store) : Option Store :=
  sets.foldlM
    (fun st set => (set.to_rule_set_without_non_terminal).map (st.add_rule_set set.name)) st

/-- The second loop of `Grammar::to_store` (src/grammar.rs): append the link
steps of every grammar set. -/
def pass2 (sets : List GrammarSet) (st : Store) : Option Store :=
  sets.foldlM (fun st set => set.link_into st) st

/-- `Grammar::to_store` (src/grammar.rs): pass 1 inserts the terminal-only
skeleton of every set; pass 2 appends the link steps. Any panic of the Rust
code (unknown terminal, unknown non-terminal, missing set, out-of-bounds
index) is `none`. -/
def Grammar.to_store (g : Grammar) : Option Store :=
  match pass1 g.sets Store.new with
  | none => none
  | some store1 => pass2 g.sets store1

/-- Token acquisition of `Parser::process` (src/parser.rs): use the carry
token if present, otherwise advance the lexer, otherwise emit the `End`
sentinel once (latching `end`). Returns the acquired item, the remaining
lexer, and the updated latch. -/
def acquire (lexer : List LexTok) (next_token : Option Token) (e : Bool) :
    Option LexTok × List LexTok × Bool :=
  match next_token with
  | some t => (some (Except.ok t), lexer, e)
  | none =>
    match lexer with
    | t :: rest => (some t, rest, e)
    | [] => if e then (none, [], e) else (some (Except.ok Token.End), [], true)

/-- The `for rule in rules` loop of `Parser::process_rule_set`
(src/parser.rs): attempt each rule in order; the first `true` wins; `false`
moves on; a panic (or exhausted fuel) of an attempt propagates. Each attempt
receives its own clone of the cursor, which `attempt` captures. -/
def try_rules (attempt : Rule → PRes) : List Rule → PRes
  | [] => PRes.ok false
  | r :: rest =>
    match attempt r with
    | PRes.ok true => PRes.ok true
    | PRes.ok false => try_rules attempt rest
    | other => other

/-- The body of `Parser::process` (src/parser.rs), with the two recursive
calls abstracted as `proc` (the recursive `Self::process`) and `prs`
(`Self::process_rule_set`). After token acquisition: accept when the token is
gone or the `End` sentinel and the steps are exhausted; reject when exactly
one of the two is exhausted; otherwise fetch the current step (out-of-bounds
indexing panics) and either descend into the linked rule set with the
acquired token as carry, or match a terminal and advance, or reject; the
`unwrap` calls on an error token or an absent step token panic. -/
def process_body (s : Store)
    (proc : List LexTok → List RuleStep → Nat → Option Token → Bool → PRes)
    (prs : List LexTok → List Rule → Nat → Option Token → Bool → PRes)
    (lexer0 : List LexTok) (steps : List RuleStep) (index : Nat)
    (next_token : Option Token) (e0 : Bool) : PRes :=
  match acquire lexer0 next_token e0 with
  | (token, lexer, e) =>
    if (token = none ∨ token = some (Except.ok Token.End)) ∧ index = steps.length then
      PRes.ok true
    else if token = none ∨ index = steps.length then
      PRes.ok false
    else
      match steps[index]?, token with
      | none, _ => PRes.panic
      | some _, none => PRes.ok false
      | some step, some t =>
        match step.token, step.next with
        | none, some name =>
          match s.get_rule_set name, t with
          | none, _ => PRes.panic
          | some _, Except.error _ => PRes.panic
          | some rs, Except.ok tok => prs lexer rs.rules 0 (some tok) e
        | some stok, _ =>
          match t with
          | Except.error _ => PRes.panic
          | Except.ok tok =>
            if tok = stok then proc lexer steps (index + 1) none e
            else PRes.ok false
        | none, none => PRes.panic

/-- The mutually recursive pair `Parser::process` (first component) and
`Parser::process_rule_set` (second component) of src/parser.rs, built by
structural recursion on the fuel so that applications reduce in the kernel.
`engine s fuel` gives both functions at recursion depth `fuel`; each
recursive call descends to depth `fuel - 1`. -/
def engine (s : Store) :
    Nat →
      (List LexTok → List RuleStep → Nat → Option Token → Bool → PRes) ×
      (List LexTok → List Rule → Nat → Option Token → Bool → PRes)
  | 0 => (fun _ _ _ _ _ => PRes.out, fun _ _ _ _ _ => PRes.out)
  | fuel + 1 =>
    let deeper := engine s fuel
    ( process_body s deeper.1 deeper.2,
      fun lexer rules index next_token e =>
        try_rules (fun r => deeper.1 lexer r.steps index next_token e) rules )

/-- `Parser::process` (src/parser.rs) at recursion depth `fuel`. -/
def process (s : Store) (fuel : Nat) (lexer : List LexTok) (steps : List RuleStep)
    (index : Nat) (next_token : Option Token) (e : Bool) : PRes :=
  (engine s fuel).1 lexer steps index next_token e

/-- `Parser::process_rule_set` (src/parser.rs) at recursion depth `fuel`: it
clones the cursor for each rule (every attempt receives the same `lexer`) and
never advances its own cursor. -/
def process_rule_set (s : Store) (fuel : Nat) (lexer : List LexTok) (rules : List Rule)
    (index : Nat) (next_token : Option Token) (e : Bool) : PRes :=
  (engine s fuel).2 lexer rules index next_token e

/-- The `Parser` struct (src/parser.rs): a lexer cursor and the store. -/
structure Parser where
  lexer : List LexTok
  store : Store
deriving DecidableEq, Repr

/-- The token stream of the compile-time constant
`const INPUT: &str = "contact A B 20 32"` of src/parser.rs, as the fixed
lexer tokenizes it. -/
def INPUT : List LexTok :=
  [Except.ok Token.Contact, Except.ok Token.Identifier, Except.ok Token.Identifier,
    Except.ok Token.Number, Except.ok Token.Number]

/-- `Parser::new` (src/parser.rs): takes only the store and builds the lexer
from the compile-time constant `INPUT` — no input parameter exists. -/
def Parser.new (store : Store) : Parser :=
  ⟨INPUT, store⟩

/-- `Parser::parse` (src/parser.rs): fetch all rules and run
`process_rule_set(&mut self.lexer, rules, 0, None, false)`. The borrowed
`self.lexer` is only cloned inside `process_rule_set`, never advanced, so the
parser state is returned unchanged. `iter` is the `HashMap` iteration order
used by `get_all_rules`; `fuel` bounds the recursion depth. -/
def Parser.parse (p : Parser) (iter : List String) (fuel : Nat) : PRes × Parser :=
  (process_rule_set p.store fuel p.lexer (p.store.get_all_rules iter) 0 none false, p)

/-- A lexer stream on which the lexer surfaces no error token. -/
def lex_ok (lexer : List LexTok) : Bool :=
  lexer.all (fun t =>
    match t with
    | Except.ok _ => true
    | Except.error _ => false)

/-- A step sequence whose every step populates at least one of its two
optional fields, and whose link names resolve in the store (in the Rust code
a link holds a live `Arc`, so resolution cannot fail; here resolution is by
name). -/
def steps_ok (s : Store) (steps : List RuleStep) : Bool :=
  steps.all (fun st =>
    (st.token.isSome || st.next.isSome) &&
    (match st.next with
     | some n => (s.get_rule_set n).isSome
     | none => true))

/-- Every step of every rule of every set of the store is well-formed in the
sense of `steps_ok`. -/
def Store.wf_steps (s : Store) : Bool :=
  s.sets.all (fun p => p.2.rules.all (fun r => steps_ok s r.steps))

/-- No rule of any set of the store is the empty-steps epsilon alternative. -/
def Store.no_empty_rule (s : Store) : Bool :=
  s.sets.all (fun p => p.2.rules.all (fun r => !r.steps.isEmpty))

/-- No terminal step of any rule of the store carries the `End` sentinel
kind. -/
def Store.no_end_terminal (s : Store) : Bool :=
  s.sets.all (fun p => p.2.rules.all (fun r => r.steps.all (fun st => st.token != some Token.End)))

/-- Append one link step to the end of the j-th rule for each j below the
length of `nts`, linking to the j-th name; rules beyond that keep their steps.
This is the net effect that pass 2 of `Grammar::to_store` has on one stored
set, with `nts` the non-terminal references of the set's grammar rules in
declaration order. -/
def withLinks : List Rule → List String → List Rule
  | rules, [] => rules
  | [], _ :: _ => []
  | r :: rs, nt :: nts => ⟨r.steps ++ [⟨none, some nt⟩]⟩ :: withLinks rs nts

instance (s : Store) (iter : List String) : Decidable (s.hash_iter iter) := by
  unfold Store.hash_iter
  infer_instance

/-- A grammar set whose first declared rule is terminal-only and whose second
declares a non-terminal reference (to the set itself). -/
def g0 : Grammar := ⟨[⟨"S", [⟨["Number"], none⟩, ⟨[], some ("S")⟩]⟩]⟩

/-- The store `Grammar::to_store` builds from `g0`. -/
def store_g0 : Store :=
  ⟨[("S", ⟨[⟨[⟨some Token.Number, none⟩, ⟨none, some ("S")⟩]⟩, ⟨[]⟩]⟩)]⟩

/-- A store with a single set holding a single one-terminal rule. -/
def store_terc : Store := ⟨[("S", ⟨[⟨[⟨some Token.Number, none⟩]⟩]⟩)]⟩

/-- A two-set store whose two sets are distinguishable by their rules. -/
def s2 : Store :=
  ⟨[("A", ⟨[⟨[⟨some Token.Contact, none⟩]⟩]⟩), ("B", ⟨[⟨[⟨some Token.Number, none⟩]⟩]⟩)]⟩

/-- A grammar whose only rule consists of the single terminal name "End": not
the epsilon alternative, yet it matches the bare `End` sentinel. -/
def gEnd : Grammar := ⟨[⟨"E", [⟨["End"], none⟩]⟩]⟩

/-- The store `Grammar::to_store` builds from `gEnd`. -/
def store_gEnd : Store := ⟨[("E", ⟨[⟨[⟨some Token.End, none⟩]⟩]⟩)]⟩

/-- Unfolding of `process` at exhausted fuel. -/
theorem process_zero (s : Store) (lx : List LexTok) (steps : List RuleStep) (i : Nat)
    (nt : Option Token) (e : Bool) : process s 0 lx steps i nt e = PRes.out := rfl

/-- Unfolding of `process_rule_set` at exhausted fuel. -/
theorem process_rule_set_zero (s : Store) (lx : List LexTok) (rules : List Rule) (i : Nat)
    (nt : Option Token) (e : Bool) : process_rule_set s 0 lx rules i nt e = PRes.out := rfl

/-- Unfolding of `process` at positive fuel: one step of the body, with the
recursive calls at one less fuel. -/
theorem process_succ (s : Store) (f : Nat) (lx : List LexTok) (steps : List RuleStep)
    (i : Nat) (nt : Option Token) (e : Bool) :
    process s (f + 1) lx steps i nt e =
      process_body s (process s f) (process_rule_set s f) lx steps i nt e := rfl

/-- Unfolding of `process_rule_set` at positive fuel: the rule loop, each
attempt running `process` on the same cursor at one less fuel. -/
theorem process_rule_set_succ (s : Store) (f : Nat) (lx : List LexTok) (rules : List Rule)
    (i : Nat) (nt : Option Token) (e : Bool) :
    process_rule_set s (f + 1) lx rules i nt e =
      try_rules (fun r => process s f lx r.steps i nt e) rules := rfl

/-- The first `true` attempt wins: `try_rules` returns `ok true` iff some rule
at position `i` succeeds while every rule before it returns `ok false`. -/
theorem try_rules_eq_true_iff (att : Rule → PRes) (rules : List Rule) :
    try_rules att rules = PRes.ok true ↔
      ∃ i r, rules[i]? = some r ∧ att r = PRes.ok true ∧
        ∀ r' ∈ rules.take i, att r' = PRes.ok false := by
  induction rules with
  | nil =>
    simp [try_rules]
  | cons r rest ih =>
    simp only [try_rules]
    cases hr : att r with
    | ok b =>
      cases b
      · rw [ih]
        constructor
        · rintro ⟨i, rr, h1, h2, h3⟩
          refine ⟨i + 1, rr, by simpa using h1, h2, ?_⟩
          intro r' hr'
          rcases List.mem_cons.mp (by simpa using hr') with h | h
          · simpa [h] using hr
          · exact h3 r' h
        · rintro ⟨i, rr, h1, h2, h3⟩
          cases i with
          | zero =>
            exact absurd h2 (by simp_all)
          | succ i =>
            exact ⟨i, rr, by simpa using h1, h2, fun r' hr' => h3 r' (by simpa using List.mem_cons_of_mem r hr')⟩
      · simp only [true_iff]
        exact ⟨0, r, by simp, hr, by simp⟩
    | panic =>
      simp only [iff_false_intro (by simp : ¬(PRes.panic = PRes.ok true)), false_iff]
      rintro ⟨i, rr, h1, h2, h3⟩
      cases i with
      | zero => simp_all
      | succ i => exact absurd (h3 r (by simp)) (by simp [hr])
    | out =>
      simp only [iff_false_intro (by simp : ¬(PRes.out = PRes.ok true)), false_iff]
      rintro ⟨i, rr, h1, h2, h3⟩
      cases i with
      | zero => simp_all
      | succ i => exact absurd (h3 r (by simp)) (by simp [hr])

/-- `try_rules` returns `ok false` iff every rule attempt returns
`ok false`. -/
theorem try_rules_eq_false_iff (att : Rule → PRes) (rules : List Rule) :
    try_rules att rules = PRes.ok false ↔ ∀ r ∈ rules, att r = PRes.ok false := by
  induction rules with
  | nil => simp [try_rules]
  | cons r rest ih =>
    simp only [try_rules]
    cases hr : att r with
    | ok b =>
      cases b
      · rw [ih]
        simp [hr]
      · simp [hr]
    | panic => simp [hr]
    | out => simp [hr]

/-- Propagation of non-`ok true` attempts: if no rule attempt returns
`ok true`, neither does `try_rules`. -/
theorem try_rules_ne_true (att : Rule → PRes) (rules : List Rule)
    (h : ∀ r ∈ rules, att r ≠ PRes.ok true) : try_rules att rules ≠ PRes.ok true := by
  induction rules with
  | nil => simp [try_rules]
  | cons r rest ih =>
    simp only [try_rules]
    cases hr : att r with
    | ok b =>
      cases b
      · exact ih fun r' hr' => h r' (List.mem_cons_of_mem r hr')
      · exact absurd hr (h r (by simp))
    | panic => simp
    | out => simp

/-- C2: the recognizer's token source is not a parameter. `Parser::new`
receives only the store and always lexes the compile-time constant `INPUT`
("contact A B 20 32"), so every constructed recognizer carries the identical
token stream regardless of any intended input. -/
theorem c2_new_ignores_input (s : Store) :
    (Parser.new s).lexer =
      [Except.ok Token.Contact, Except.ok Token.Identifier, Except.ok Token.Identifier,
        Except.ok Token.Number, Except.ok Token.Number] := rfl

/-- C3 counterexample: the canonical name "Options" is rejected (a panic) by
`Token::from_string`, while "Rate" — outside the canonical set — succeeds. -/
theorem c3_counterexample :
    Token.from_string ("Options") = none ∧ Token.from_string ("Rate") = some Token.Options := by
  decide

/-- C3 amended: the terminal-name lookup succeeds exactly on the strings
"Contact", "Rate", "Delay", "Identifier", "Number", "End" (with "Rate" and
"Delay" both mapping to the Options kind) and is fatal for every other
string, including "Options". -/
theorem c3_name_lookup :
    Token.from_string ("Contact") = some Token.Contact ∧
    Token.from_string ("Rate") = some Token.Options ∧
    Token.from_string ("Delay") = some Token.Options ∧
    Token.from_string ("Identifier") = some Token.Identifier ∧
    Token.from_string ("Number") = some Token.Number ∧
    Token.from_string ("End") = some Token.End ∧
    ∀ name : String, name ∉ ["Contact", "Rate", "Delay", "Identifier", "Number", "End"] →
      Token.from_string name = none := by
  refine ⟨by decide, by decide, by decide, by decide, by decide, by decide, ?_⟩
  intro name h
  simp only [List.mem_cons, List.not_mem_nil, or_false, not_or] at h
  obtain ⟨h1, h2, h3, h4, h5, h6⟩ := h
  simp [Token.from_string, h1, h2, h3, h4, h5, h6]

/-- Witness for C3: the amended lookup theorem applied at the concrete name
"Options". -/
theorem c3_witness : Token.from_string ("Options") = none :=
  c3_name_lookup.2.2.2.2.2.2 ("Options") (by decide)

/-- C4 counterexample: on a store whose single rule expects a Number and an
input whose lexer surfaces an error token, the recognizer panics (the
`t.unwrap()` call) instead of returning a boolean. -/
theorem c4_counterexample :
    (Parser.parse ⟨[Except.error ()], store_terc⟩ (["S"]) 5).1 = PRes.panic := by decide

/-- C4 amended: when the next acquired item is a lexer error token (no carry
pending), `process` returns `false` only if the rule's steps are already
exhausted; whenever a step remains to match (or the index is out of range),
the `unwrap` calls panic. -/
theorem c4_error_token_panics (s : Store) (f : Nat) (rest : List LexTok)
    (steps : List RuleStep) (index : Nat) (e : Bool) :
    process s (f + 1) (Except.error () :: rest) steps index none e =
      if index = steps.length then PRes.ok false else PRes.panic := by
  rw [process_succ]
  unfold process_body
  simp only [acquire]
  by_cases h : index = steps.length
  · simp [h]
  · rcases hg : steps[index]? with _ | ⟨stok, snext⟩
    · simp [h, hg]
    · cases stok <;> rcases snext with _ | nm <;> simp [h, hg]
      cases hr : s.get_rule_set nm <;> simp

/-- C5 counterexample: a two-set store admits the reversed key order as a
valid `HashMap` iteration order, and under it `get_all_rules` does not return
the declaration-order concatenation. -/
theorem c5_counterexample :
    Store.hash_iter s2 (["B", "A"]) ∧
      s2.get_all_rules (["B", "A"]) ≠ s2.get_all_rules (s2.sets.map Prod.fst) := by
  decide

/-- C5 amended: `get_all_rules` concatenates every set's rules (each set's
rules kept in declaration order) following the `HashMap`'s unspecified
iteration order, so for any order the map can produce, the result is a
permutation of the declaration-order concatenation — but not necessarily the
declaration order itself. -/
theorem c5_all_rules_perm (s : Store) (iter : List String) (h : s.hash_iter iter) :
    (s.get_all_rules iter).Perm (s.get_all_rules (s.sets.map Prod.fst)) := by
  unfold Store.get_all_rules
  exact List.Perm.flatMap_right _ h

/-- Witness for C5: the amended permutation theorem applied to the concrete
two-set store and the reversed iteration order. -/
theorem c5_witness :
    (s2.get_all_rules (["B", "A"])).Perm (s2.get_all_rules (s2.sets.map Prod.fst)) :=
  c5_all_rules_perm s2 (["B", "A"]) (by decide)

/-- C6: `process_rule_set` tries the rules strictly in list order, attempting
each on the same cloned cursor with step index 0 under the given carry and
latch; it returns `true` exactly when some rule succeeds and every earlier
rule failed (first-match, no later rule attempted), and returns `false`
exactly when every rule fails. -/
theorem c6_first_match (s : Store) (f : Nat) (lx : List LexTok) (rules : List Rule)
    (carry : Option Token) (e : Bool) :
    (process_rule_set s (f + 1) lx rules 0 carry e = PRes.ok true ↔
      ∃ i r, rules[i]? = some r ∧ process s f lx r.steps 0 carry e = PRes.ok true ∧
        ∀ r' ∈ rules.take i, process s f lx r'.steps 0 carry e = PRes.ok false) ∧
    (process_rule_set s (f + 1) lx rules 0 carry e = PRes.ok false ↔
      ∀ r ∈ rules, process s f lx r.steps 0 carry e = PRes.ok false) := by
  rw [process_rule_set_succ]
  exact ⟨try_rules_eq_true_iff _ _, try_rules_eq_false_iff _ _⟩

/-- C7: a rule with zero steps accepts exactly when the token acquired at its
invocation is nothing (cursor exhausted with the latch already set) or the
`End` sentinel; acquiring a real token (or an error token) rejects. -/
theorem c7_epsilon_rule (s : Store) (f : Nat) (lx : List LexTok) (carry : Option Token)
    (e : Bool) :
    process s (f + 1) lx [] 0 carry e =
      if (acquire lx carry e).1 = none ∨ (acquire lx carry e).1 = some (Except.ok Token.End)
      then PRes.ok true else PRes.ok false := by
  rw [process_succ]
  unfold process_body
  rcases hacq : acquire lx carry e with ⟨token, lexer, e'⟩
  simp only [List.length_nil]
  by_cases h : token = none ∨ token = some (Except.ok Token.End)
  · simp [h]
  · simp [h, not_or.mp h]

/-- C9: `parse` is pure for a fixed (store, token stream) pair: it returns the
parser state unchanged (`self.lexer` is only cloned, never advanced), two
parsers with equal stream and store get the same verdict, and re-running
`parse` on the state left behind by a run yields the same verdict again. -/
theorem c9_parse_pure (p q : Parser) (iter : List String) (fuel : Nat)
    (hl : p.lexer = q.lexer) (hs : p.store = q.store) :
    (p.parse iter fuel).2 = p ∧
    (p.parse iter fuel).1 = (q.parse iter fuel).1 ∧
    ((p.parse iter fuel).2.parse iter fuel).1 = (p.parse iter fuel).1 := by
  refine ⟨rfl, ?_, rfl⟩
  simp [Parser.parse, hl, hs]

/-- Witness for C9: the purity theorem applied to a concrete parser. -/
theorem c9_witness :
    ((Parser.new Store.new).parse [] 1).2 = Parser.new Store.new ∧
    ((Parser.new Store.new).parse [] 1).1 = ((Parser.new Store.new).parse [] 1).1 ∧
    (((Parser.new Store.new).parse [] 1).2.parse [] 1).1 = ((Parser.new Store.new).parse [] 1).1 :=
  c9_parse_pure (Parser.new Store.new) (Parser.new Store.new) [] 1 rfl rfl

/-- Every rule of a set found in a store satisfying `no_empty_rule` has a
nonempty step list. -/
theorem no_empty_rule_spec (s : Store) (h : s.no_empty_rule = true) (name : String)
    (rs : RuleSet) (hrs : s.get_rule_set name = some rs) : ∀ r ∈ rs.rules, r.steps ≠ [] := by
  intro r hr
  unfold Store.get_rule_set at hrs
  rcases hfind : s.sets.find? (fun p => p.1 == name) with _ | p
  · simp [hfind] at hrs
  · have hmem := List.mem_of_find?_eq_some hfind
    rw [hfind, Option.map_some'] at hrs
    injection hrs with hrs
    subst hrs
    simp only [Store.no_empty_rule, List.all_eq_true] at h
    simpa using h p hmem r hr

/-- Every step of every rule of a set found in a store satisfying
`no_end_terminal` has a token kind different from the `End` sentinel. -/
theorem no_end_terminal_spec (s : Store) (h : s.no_end_terminal = true) (name : String)
    (rs : RuleSet) (hrs : s.get_rule_set name = some rs) :
    ∀ r ∈ rs.rules, ∀ st ∈ r.steps, st.token ≠ some Token.End := by
  intro r hr st hst
  unfold Store.get_rule_set at hrs
  rcases hfind : s.sets.find? (fun p => p.1 == name) with _ | p
  · simp [hfind] at hrs
  · have hmem := List.mem_of_find?_eq_some hfind
    rw [hfind, Option.map_some'] at hrs
    injection hrs with hrs
    subst hrs
    simp only [Store.no_end_terminal, List.all_eq_true, bne_iff_ne, ne_eq] at h
    exact h p hmem r hr st hst


/-- On an exhausted cursor with the `End` sentinel as carry, a rule whose
first step is not an `End` terminal cannot accept, provided descents into
linked rule sets (one fuel level down) cannot accept either. -/
theorem process_end_carry_aux (s : Store) (f : Nat)
    (ihprs : ∀ rules carry e,
      (∀ r ∈ rules, (∀ st ∈ r.steps, st.token ≠ some Token.End) ∧ r.steps ≠ []) →
      (carry = none ∨ carry = some Token.End) →
      process_rule_set s f [] rules 0 carry e ≠ PRes.ok true)
    (hne : s.no_empty_rule = true) (hnt : s.no_end_terminal = true)
    (st0 : RuleStep) (srest : List RuleStep) (e : Bool)
    (hst0 : st0.token ≠ some Token.End) :
    process s (f + 1) [] (st0 :: srest) 0 (some Token.End) e ≠ PRes.ok true := by
  rw [process_succ]
  unfold process_body
  simp only [acquire]
  rcases st0 with ⟨stok, snext⟩
  cases stok with
  | none =>
    cases snext with
    | none => simp
    | some nm =>
      rcases hrs : s.get_rule_set nm with _ | rs
      · simp [hrs]
      · simp only [List.getElem?_cons_zero, hrs]
        have hinner := ihprs rs.rules (some Token.End) e
          (fun r hr => ⟨no_end_terminal_spec s hnt nm rs hrs r hr,
            no_empty_rule_spec s hne nm rs hrs r hr⟩) (Or.inr rfl)
        simpa using hinner
  | some tk =>
    have htk : ¬(Token.End = tk) := fun h2 => hst0 (by simp at hst0 ⊢; exact h2.symm)
    cases snext <;> simp [htk]

/-- On an exhausted cursor, with the carry (if any) holding only the `End`
sentinel: a nonempty `End`-free rule entered at step 0 cannot accept, and
neither can `process_rule_set` over a list of such rules. -/
theorem empty_input_not_accept (s : Store)
    (hne : s.no_empty_rule = true) (hnt : s.no_end_terminal = true) :
    ∀ f : Nat,
      (∀ steps carry e, (∀ st ∈ steps, st.token ≠ some Token.End) → steps ≠ [] →
        (carry = none ∨ carry = some Token.End) →
        process s f [] steps 0 carry e ≠ PRes.ok true) ∧
      (∀ rules carry e,
        (∀ r ∈ rules, (∀ st ∈ r.steps, st.token ≠ some Token.End) ∧ r.steps ≠ []) →
        (carry = none ∨ carry = some Token.End) →
        process_rule_set s f [] rules 0 carry e ≠ PRes.ok true) := by
  intro f
  induction f with
  | zero =>
    refine ⟨fun steps carry e _ _ _ => ?_, fun rules carry e _ _ => ?_⟩
    · simp [process_zero]
    · simp [process_rule_set_zero]
  | succ f ih =>
    refine ⟨fun steps carry e hsteps hnonnil hcarry => ?_, fun rules carry e hrules hcarry => ?_⟩
    · rcases steps with _ | ⟨st0, srest⟩
      · exact absurd rfl hnonnil
      have hst0 : st0.token ≠ some Token.End := hsteps st0 (by simp)
      rcases hcarry with hc | hc <;> subst hc
      · cases e with
        | true =>
          rw [process_succ]
          unfold process_body
          simp [acquire]
        | false =>
          have hsame : process s (f + 1) [] (st0 :: srest) 0 none false =
              process s (f + 1) [] (st0 :: srest) 0 (some Token.End) true := by
            rw [process_succ, process_succ]
            rfl
          rw [hsame]
          exact process_end_carry_aux s f ih.2 hne hnt st0 srest true hst0
      · exact process_end_carry_aux s f ih.2 hne hnt st0 srest e hst0
    · rw [process_rule_set_succ]
      refine try_rules_ne_true _ _ ?_
      intro r hr
      exact ih.1 r.steps carry e (hrules r hr).1 (hrules r hr).2 hcarry

/-- C8 counterexample: `gEnd` loads to a store with no epsilon alternative
(its single rule has one step), yet `parse` of the empty input returns
`true`, because the rule's single terminal step carries the `End` sentinel
kind and matches the synthesized end-of-stream token. -/
theorem c8_counterexample :
    Grammar.to_store gEnd = some store_gEnd ∧
    store_gEnd.no_empty_rule = true ∧
    (Parser.parse ⟨[], store_gEnd⟩ (["E"]) 3).1 = PRes.ok true := by decide

/-- C8 amended: for a store in which no rule is the epsilon alternative and,
additionally, no terminal step carries the `End` sentinel kind, `parse` of the
empty input never returns `true` (it rejects, runs out of fuel on pure-link
cycles, or panics on a malformed step — but never accepts). -/
theorem c8_empty_input_never_accepts (s : Store) (iter : List String) (fuel : Nat)
    (hne : s.no_empty_rule = true) (hnt : s.no_end_terminal = true) :
    (Parser.parse ⟨[], s⟩ iter fuel).1 ≠ PRes.ok true := by
  show process_rule_set s fuel [] (s.get_all_rules iter) 0 none false ≠ PRes.ok true
  refine (empty_input_not_accept s hne hnt fuel).2 _ none false ?_ (Or.inl rfl)
  intro r hr
  unfold Store.get_all_rules at hr
  rcases List.mem_flatMap.mp hr with ⟨n, _, hn⟩
  rcases hrs : s.get_rule_set n with _ | rs
  · rw [hrs] at hn
    simp at hn
  · rw [hrs] at hn
    simp only at hn
    exact ⟨no_end_terminal_spec s hnt n rs hrs r hn, no_empty_rule_spec s hne n rs hrs r hn⟩

/-- Witness for C8: the amended theorem applied to the concrete one-rule
store, whose hypotheses hold by computation. -/
theorem c8_witness : (Parser.parse ⟨[], store_terc⟩ (["S"]) 5).1 ≠ PRes.ok true :=
  c8_empty_input_never_accepts store_terc (["S"]) 5 (by decide) (by decide)

/-- Propagation of non-panic attempts: if no rule attempt panics, neither
does `try_rules`. -/
theorem try_rules_ne_panic (att : Rule → PRes) (rules : List Rule)
    (h : ∀ r ∈ rules, att r ≠ PRes.panic) : try_rules att rules ≠ PRes.panic := by
  induction rules with
  | nil => simp [try_rules]
  | cons r rest ih =>
    simp only [try_rules]
    cases hr : att r with
    | ok b =>
      cases b
      · exact ih fun r' hr' => h r' (List.mem_cons_of_mem r hr')
      · simp
    | panic => exact absurd hr (h r (by simp))
    | out => simp

/-- Unpacking `steps_ok` at a member step. -/
theorem steps_ok_spec (s : Store) (steps : List RuleStep) (h : steps_ok s steps = true)
    (st : RuleStep) (hst : st ∈ steps) :
    (st.token.isSome || st.next.isSome) = true ∧
      ∀ nm, st.next = some nm → (s.get_rule_set nm).isSome = true := by
  simp only [steps_ok, List.all_eq_true] at h
  obtain h2 := h st hst
  rw [Bool.and_eq_true] at h2
  refine ⟨h2.1, fun nm hnm => ?_⟩
  have := h2.2
  rw [hnm] at this
  exact this

/-- Every rule of a set found in a store satisfying `wf_steps` has a
well-formed step list. -/
theorem wf_steps_spec (s : Store) (h : s.wf_steps = true) (name : String) (rs : RuleSet)
    (hrs : s.get_rule_set name = some rs) : ∀ r ∈ rs.rules, steps_ok s r.steps = true := by
  intro r hr
  unfold Store.get_rule_set at hrs
  rcases hfind : s.sets.find? (fun p => p.1 == name) with _ | p
  · simp [hfind] at hrs
  · have hmem := List.mem_of_find?_eq_some hfind
    rw [hfind, Option.map_some'] at hrs
    injection hrs with hrs
    subst hrs
    simp only [Store.wf_steps, List.all_eq_true] at h
    exact h p hmem r hr

/-- Unpacking `lex_ok` at a cons cell. -/
theorem lex_ok_cons (t : LexTok) (rest : List LexTok) (h : lex_ok (t :: rest) = true) :
    (∃ tok, t = Except.ok tok) ∧ lex_ok rest = true := by
  simp only [lex_ok, List.all_cons, Bool.and_eq_true] at h
  refine ⟨?_, h.2⟩
  rcases t with _ | tok
  · simp at h
  · exact ⟨tok, rfl⟩

/-- With a well-formed store, well-formed steps, an error-free lexer stream
and an in-range step index, neither `process` nor `process_rule_set` (entered
at index 0) can panic: every `unwrap` of the Rust code is on a populated
value. -/
theorem no_panic_aux (s : Store) (hwf : s.wf_steps = true) :
    ∀ f : Nat,
      (∀ lx steps index carry e, lex_ok lx = true → steps_ok s steps = true →
        index ≤ steps.length → process s f lx steps index carry e ≠ PRes.panic) ∧
      (∀ lx rules carry e, lex_ok lx = true → (∀ r ∈ rules, steps_ok s r.steps = true) →
        process_rule_set s f lx rules 0 carry e ≠ PRes.panic) := by
  intro f
  induction f with
  | zero =>
    refine ⟨fun lx steps index carry e _ _ _ => ?_, fun lx rules carry e _ _ => ?_⟩
    · simp [process_zero]
    · simp [process_rule_set_zero]
  | succ f ih =>
    refine ⟨fun lx steps index carry e hlex hsteps hidx => ?_,
      fun lx rules carry e hlex hrules => ?_⟩
    · have hacq : ∃ token lexer2 e2, acquire lx carry e = (token, lexer2, e2) ∧
          (token = none ∨ ∃ tok, token = some (Except.ok tok)) ∧ lex_ok lexer2 = true := by
        rcases carry with _ | c
        · rcases lx with _ | ⟨t, rest⟩
          · cases e
            · exact ⟨some (Except.ok Token.End), [], true, rfl, Or.inr ⟨_, rfl⟩, rfl⟩
            · exact ⟨none, [], true, rfl, Or.inl rfl, rfl⟩
          · obtain ⟨⟨tok, htok⟩, hrest⟩ := lex_ok_cons t rest hlex
            exact ⟨some t, rest, e, rfl, Or.inr ⟨tok, by rw [htok]⟩, hrest⟩
        · exact ⟨some (Except.ok c), lx, e, rfl, Or.inr ⟨c, rfl⟩, hlex⟩
      obtain ⟨token, lexer2, e2, hacq, htok, hlex2⟩ := hacq
      rw [process_succ]
      unfold process_body
      simp only [hacq]
      rcases htok with rfl | ⟨tok, rfl⟩
      · have h2 : (none : Option LexTok) = none ∨ index = steps.length := Or.inl rfl
        by_cases hA : ((none : Option LexTok) = none ∨
            (none : Option LexTok) = some (Except.ok Token.End)) ∧ index = steps.length
        · rw [if_pos hA]
          simp
        · rw [if_neg hA, if_pos h2]
          simp
      · by_cases hine : index = steps.length
        · have h2 : some (Except.ok tok : LexTok) = none ∨ index = steps.length := Or.inr hine
          by_cases hA : (some (Except.ok tok : LexTok) = none ∨
              some (Except.ok tok : LexTok) = some (Except.ok Token.End)) ∧ index = steps.length
          · rw [if_pos hA]
            simp
          · rw [if_neg hA, if_pos h2]
            simp
        · have h1 : ¬((some (Except.ok tok : LexTok) = none ∨
              some (Except.ok tok : LexTok) = some (Except.ok Token.End)) ∧
              index = steps.length) := fun hh => hine hh.2
          have h2 : ¬(some (Except.ok tok : LexTok) = none ∨ index = steps.length) := by
            rintro (hc | hc)
            · exact absurd hc (by simp)
            · exact hine hc
          have hlt : index < steps.length := lt_of_le_of_ne hidx hine
          have hstep : steps[index]? = some steps[index] := List.getElem?_eq_getElem hlt
          obtain ⟨hpop, hres⟩ := steps_ok_spec s steps hsteps _ (List.getElem_mem hlt)
          rcases hst : steps[index].token with _ | stok <;>
            rcases hsn : steps[index].next with _ | nm
          · rw [hst, hsn] at hpop
            simp at hpop
          · have hsome := hres nm hsn
            rcases hgr : s.get_rule_set nm with _ | rs
            · rw [hgr] at hsome
              simp at hsome
            · simp only [if_neg h1, if_neg h2, hstep, hst, hsn, hgr]
              exact ih.2 lexer2 rs.rules (some tok) e2 hlex2 (wf_steps_spec s hwf nm rs hgr)
          · simp only [if_neg h1, if_neg h2, hstep, hst, hsn]
            by_cases heq : tok = stok
            · rw [if_pos heq]
              exact ih.1 lexer2 steps (index + 1) none e2 hlex2 hsteps (Nat.succ_le_of_lt hlt)
            · rw [if_neg heq]
              simp
          · simp only [if_neg h1, if_neg h2, hstep, hst, hsn]
            by_cases heq : tok = stok
            · rw [if_pos heq]
              exact ih.1 lexer2 steps (index + 1) none e2 hlex2 hsteps (Nat.succ_le_of_lt hlt)
            · rw [if_neg heq]
              simp
    · rw [process_rule_set_succ]
      refine try_rules_ne_panic _ _ ?_
      intro r hr
      exact ih.1 lx r.steps 0 carry e hlex (hrules r hr) (Nat.zero_le _)

/-- C10: under the preconditions that every step of the store (and of the
rule being matched) populates at least one of its two optional fields, that
link references resolve in the store (in Rust the link holds a live shared
handle), that the lexer stream holds only successfully lexed tokens, and that
the step index is in range (as at every call site), the step-matching branch
of `process` never panics: each `unwrap` — of the step's link target, the
step's token, and the acquired token — is on a populated value. -/
theorem c10_no_panic (s : Store) (fuel : Nat) (lx : List LexTok) (steps : List RuleStep)
    (index : Nat) (carry : Option Token) (e : Bool)
    (hwf : s.wf_steps = true) (hsteps : steps_ok s steps = true)
    (hlex : lex_ok lx = true) (hidx : index ≤ steps.length) :
    process s fuel lx steps index carry e ≠ PRes.panic :=
  (no_panic_aux s hwf fuel).1 lx steps index carry e hlex hsteps hidx

/-- Witness for C10: the no-panic theorem applied to the store built from
`g0` (which contains a link step) and an error-free one-token stream. -/
theorem c10_witness :
    process store_g0 4 [Except.ok Token.Number]
      [⟨some Token.Number, none⟩, ⟨none, some ("S")⟩] 0 none false ≠ PRes.panic :=
  c10_no_panic store_g0 4 [Except.ok Token.Number]
    [⟨some Token.Number, none⟩, ⟨none, some ("S")⟩] 0 none false
    (by decide) (by decide) (by decide) (by decide)

/-- C1 counterexample: in `g0` the grammar rule at declaration position 1
declares the non-terminal reference (to "S"), so per the claim the stored
Rule at position 1 should carry its terminal steps (none) followed by one
link step; instead it has no steps at all — the link was appended to the
terminal-only Rule at position 0. -/
theorem c1_counterexample :
    ((Grammar.to_store g0).bind (fun st => st.get_rule_set ("S"))).map
        (fun rs => rs.rules[1]?) = some (some (⟨[]⟩ : Rule)) ∧
      (⟨[]⟩ : Rule) ≠ ⟨[⟨none, some ("S")⟩]⟩ := by decide

/-- Replacing the entry of a present key makes `find?` on that key return the
replacement. -/
theorem find?_replace_same (l : List (String × RuleSet)) (n : String) (rs : RuleSet)
    (h : l.any (fun p => p.1 == n) = true) :
    (l.map (fun p => if p.1 == n then (n, rs) else p)).find? (fun p => p.1 == n) =
      some (n, rs) := by
  induction l with
  | nil => simp at h
  | cons p t ih =>
    rw [List.map_cons]
    cases hp : (p.1 == n) with
    | true => simp
    | false =>
      have ht : t.any (fun p => p.1 == n) = true := by
        simp only [List.any_cons, hp, Bool.false_or] at h
        exact h
      rw [if_neg (by simp), List.find?_cons_of_neg, ih ht]
      simp [hp]

/-- Replacing the entry of key `n` leaves `find?` for a different key `m`
unchanged. -/
theorem find?_replace_other (l : List (String × RuleSet)) (n m : String) (rs : RuleSet)
    (hm : m ≠ n) :
    (l.map (fun p => if p.1 == n then (n, rs) else p)).find? (fun p => p.1 == m) =
      l.find? (fun p => p.1 == m) := by
  induction l with
  | nil => simp
  | cons p t ih =>
    rw [List.map_cons]
    cases hp : (p.1 == n) with
    | true =>
      have hpn : p.1 = n := by simpa using hp
      have h1 : (((n, rs) : String × RuleSet).1 == m) = false := by
        simp only [beq_eq_false_iff_ne, ne_eq]
        exact fun hc => hm hc.symm
      have h2 : (p.1 == m) = false := by
        rw [hpn]
        simp only [beq_eq_false_iff_ne, ne_eq]
        exact fun hc => hm hc.symm
      rw [if_pos rfl, List.find?_cons_of_neg, List.find?_cons_of_neg, ih]
      · simp [h2]
      · simp [h1]
    | false =>
      rw [if_neg (by simp)]
      cases hq : (p.1 == m) with
      | true =>
        rw [List.find?_cons_of_pos (List.map (fun p => if p.1 == n then (n, rs) else p) t) hq,
            List.find?_cons_of_pos t hq]
      | false =>
        rw [List.find?_cons_of_neg, List.find?_cons_of_neg, ih]
        · simp [hq]
        · simp [hq]

/-- After `add_rule_set`, looking up the inserted name returns the inserted
set. -/
theorem get_add_same (s : Store) (n : String) (rs : RuleSet) :
    (s.add_rule_set n rs).get_rule_set n = some rs := by
  unfold Store.add_rule_set Store.get_rule_set
  cases ha : s.sets.any (fun p => p.1 == n) with
  | true =>
    rw [if_pos rfl]
    dsimp only
    rw [find?_replace_same s.sets n rs ha]
    rfl
  | false =>
    have hnone : s.sets.find? (fun p => p.1 == n) = none := by
      rw [List.find?_eq_none]
      intro x hx
      simp only [List.any_eq_false] at ha
      simp [ha x hx]
    simp [List.find?_append, hnone]

/-- `add_rule_set` does not change the lookup of any other name. -/
theorem get_add_other (s : Store) (n m : String) (rs : RuleSet) (hm : m ≠ n) :
    (s.add_rule_set n rs).get_rule_set m = s.get_rule_set m := by
  unfold Store.add_rule_set Store.get_rule_set
  cases ha : s.sets.any (fun p => p.1 == n) with
  | true =>
    rw [if_pos rfl]
    dsimp only
    rw [find?_replace_other s.sets n m rs hm]
  | false =>
    have h1 : ((n, rs).1 == m) = false := by simpa using fun hc => hm hc.symm
    cases hf : s.sets.find? (fun p => p.1 == m) with
    | none => simp [List.find?_append, hf, h1]
    | some p => simp [List.find?_append, hf]

/-- `withLinks` with no names to link leaves the rules unchanged. -/
theorem withLinks_nil (rules : List Rule) : withLinks rules [] = rules := by
  cases rules <;> rfl

/-- `withLinks` preserves the number of rules. -/
theorem withLinks_length (rules : List Rule) (nts : List String) :
    (withLinks rules nts).length = rules.length := by
  induction rules generalizing nts with
  | nil => cases nts <;> rfl
  | cons r rest ih =>
    cases nts with
    | nil => rfl
    | cons nt nts => simp [withLinks, ih]

/-- Appending one more link via `append_link` at the next parallel index
extends `withLinks` by one name. -/
theorem withLinks_append_one (rules : List Rule) (nts : List String) (nt : String)
    (h : nts.length < rules.length) :
    RuleSet.append_link ⟨withLinks rules nts⟩ nts.length nt =
      some ⟨withLinks rules (nts ++ [nt])⟩ := by
  induction nts generalizing rules with
  | nil =>
    cases rules with
    | nil => simp at h
    | cons r rest =>
      rw [withLinks_nil]
      unfold RuleSet.append_link
      simp [withLinks]
  | cons nt0 nts ih =>
    cases rules with
    | nil => simp at h
    | cons r rest =>
      have hlt : nts.length < rest.length := by simpa using h
      have ih2 := ih rest hlt
      unfold RuleSet.append_link at ih2 ⊢
      cases h2 : (withLinks rest nts)[nts.length]? with
      | none =>
        rw [h2] at ih2
        exact absurd ih2 (by simp)
      | some r2 =>
        rw [h2] at ih2
        simp only [Option.some.injEq, RuleSet.mk.injEq] at ih2
        simp only [withLinks, List.length_cons, List.getElem?_cons_succ, h2,
          List.set_cons_succ, List.cons_append, Option.some.injEq, RuleSet.mk.injEq]
        rw [ih2]
        rfl

/-- Unfolding of pass 1 at a cons cell. -/
theorem pass1_cons (set : GrammarSet) (rest : List GrammarSet) (st : Store) :
    pass1 (set :: rest) st =
      match set.to_rule_set_without_non_terminal with
      | none => none
      | some rs => pass1 rest (st.add_rule_set set.name rs) := by
  cases h : set.to_rule_set_without_non_terminal <;>
    simp [pass1, List.foldlM_cons, h]

/-- Unfolding of pass 2 at a cons cell. -/
theorem pass2_cons (set : GrammarSet) (rest : List GrammarSet) (st : Store) :
    pass2 (set :: rest) st =
      match set.link_into st with
      | none => none
      | some st2 => pass2 rest st2 := by
  cases h : set.link_into st <;>
    simp [pass2, List.foldlM_cons, h]

/-- Pass 1 does not change the lookup of a name that is not among the
inserted grammar-set names. -/
theorem pass1_preserve (sets : List GrammarSet) (st0 st1 : Store) (n : String)
    (h : pass1 sets st0 = some st1) (hn : n ∉ sets.map GrammarSet.name) :
    st1.get_rule_set n = st0.get_rule_set n := by
  induction sets generalizing st0 with
  | nil =>
    simp only [pass1, List.foldlM_nil, Option.pure_def, Option.some.injEq] at h
    rw [h]
  | cons set rest ih =>
    rw [pass1_cons] at h
    cases hc : set.to_rule_set_without_non_terminal with
    | none => rw [hc] at h; exact absurd h (by simp)
    | some rs =>
      rw [hc] at h
      have hn1 : n ∉ rest.map GrammarSet.name := fun hmem => hn (by simp [hmem])
      have hn2 : n ≠ set.name := fun hmem => hn (by simp [hmem])
      rw [ih _ h hn1, get_add_other st0 set.name n rs hn2]

/-- After pass 1 over grammar sets with pairwise distinct names, the store
maps each set's name to its terminal-only skeleton. -/
theorem pass1_mem (sets : List GrammarSet) (st0 st1 : Store)
    (h : pass1 sets st0 = some st1) (hnd : (sets.map GrammarSet.name).Nodup)
    (gs : GrammarSet) (hgs : gs ∈ sets) :
    ∃ rs, gs.to_rule_set_without_non_terminal = some rs ∧
      st1.get_rule_set gs.name = some rs := by
  induction sets generalizing st0 with
  | nil => simp at hgs
  | cons set rest ih =>
    rw [pass1_cons] at h
    cases hc : set.to_rule_set_without_non_terminal with
    | none => rw [hc] at h; exact absurd h (by simp)
    | some rs =>
      rw [hc] at h
      rcases List.mem_cons.mp hgs with rfl | hgs2
      · refine ⟨rs, hc, ?_⟩
        have hnot : gs.name ∉ rest.map GrammarSet.name := by
          simpa using (List.nodup_cons.mp hnd).1
        rw [pass1_preserve rest _ st1 gs.name h hnot, get_add_same]
      · exact ih _ h (List.nodup_cons.mp hnd).2 hgs2

/-- The pass-2 inner loop only rewrites the entry of its own set name. -/
theorem link_rules_preserve (grs : List GrammarRule) (store st' : Store) (name m : String)
    (i : Nat) (h : link_rules store name grs i = some st') (hm : m ≠ name) :
    st'.get_rule_set m = store.get_rule_set m := by
  induction grs generalizing store i with
  | nil =>
    unfold link_rules at h
    simp only [Option.some.injEq] at h
    rw [← h]
  | cons gr rest ih =>
    unfold link_rules at h
    cases hnt : gr.non_terminal with
    | none =>
      simp only [hnt] at h
      exact ih _ _ h
    | some nt =>
      simp only [hnt] at h
      cases h1 : store.get_rule_set nt with
      | none =>
        simp only [h1] at h
        exact absurd h (by simp)
      | some rsnt =>
        simp only [h1] at h
        cases h2 : store.get_rule_set name with
        | none =>
          simp only [h2] at h
          exact absurd h (by simp)
        | some rsx =>
          simp only [h2] at h
          cases h3 : rsx.append_link i nt with
          | none =>
            simp only [h3] at h
            exact absurd h (by simp)
          | some rs2 =>
            simp only [h3] at h
            rw [ih _ _ h, get_add_other store name m rs2 hm]

/-- The pass-2 inner loop, started at parallel index `nts.length` on an entry
that already carries the links `nts`, extends that entry by one link per
non-terminal reference of the remaining grammar rules, in declaration
order. -/
theorem link_rules_spec (grs : List GrammarRule) (name : String) (base : List Rule) :
    ∀ (store st' : Store) (nts : List String),
    link_rules store name grs nts.length = some st' →
    store.get_rule_set name = some ⟨withLinks base nts⟩ →
    st'.get_rule_set name =
      some ⟨withLinks base (nts ++ grs.filterMap GrammarRule.non_terminal)⟩ := by
  induction grs with
  | nil =>
    intro store st' nts h hcur
    unfold link_rules at h
    simp only [Option.some.injEq] at h
    rw [← h, hcur]
    simp
  | cons gr rest ih =>
    intro store st' nts h hcur
    unfold link_rules at h
    cases hnt : gr.non_terminal with
    | none =>
      simp only [hnt] at h
      have hres := ih store st' nts h hcur
      simpa [List.filterMap_cons, hnt] using hres
    | some nt =>
      simp only [hnt] at h
      cases h1 : store.get_rule_set nt with
      | none =>
        simp only [h1] at h
        exact absurd h (by simp)
      | some rsnt =>
        simp only [h1, hcur] at h
        cases h3 : RuleSet.append_link ⟨withLinks base nts⟩ nts.length nt with
        | none =>
          simp only [h3] at h
          exact absurd h (by simp)
        | some rs2 =>
          simp only [h3] at h
          have hlt : nts.length < base.length := by
            by_contra hc
            push_neg at hc
            have hnone : (withLinks base nts)[nts.length]? = none := by
              apply List.getElem?_eq_none
              rw [withLinks_length]
              exact hc
            unfold RuleSet.append_link at h3
            rw [hnone] at h3
            exact absurd h3 (by simp)
          have h4 := withLinks_append_one base nts nt hlt
          rw [h3] at h4
          injection h4 with h4
          subst h4
          have hlen : (nts ++ [nt]).length = nts.length + 1 := by simp
          have hres := ih (store.add_rule_set name ⟨withLinks base (nts ++ [nt])⟩) st'
            (nts ++ [nt]) (by rw [hlen]; exact h) (get_add_same _ _ _)
          rw [hres]
          simp [List.filterMap_cons, hnt, List.append_assoc]

/-- Pass 2 for one grammar set only rewrites that set's entry. -/
theorem link_into_preserve (gs : GrammarSet) (store st' : Store) (m : String)
    (h : gs.link_into store = some st') (hm : m ≠ gs.name) :
    st'.get_rule_set m = store.get_rule_set m := by
  unfold GrammarSet.link_into at h
  cases h0 : store.get_rule_set gs.name with
  | none =>
    simp only [h0] at h
    exact absurd h (by simp)
  | some rs0 =>
    simp only [h0] at h
    exact link_rules_preserve gs.rules store st' gs.name m 0 h hm

/-- Pass 2 for one grammar set turns its pass-1 entry `base` into
`withLinks base nts`, where `nts` lists the set's non-terminal references in
declaration order. -/
theorem link_into_spec (gs : GrammarSet) (store st' : Store) (base : List Rule)
    (h : gs.link_into store = some st')
    (hcur : store.get_rule_set gs.name = some ⟨base⟩) :
    st'.get_rule_set gs.name =
      some ⟨withLinks base (gs.rules.filterMap GrammarRule.non_terminal)⟩ := by
  unfold GrammarSet.link_into at h
  simp only [hcur] at h
  have hcur2 : store.get_rule_set gs.name = some ⟨withLinks base []⟩ := by
    rw [hcur, withLinks_nil]
  have hres := link_rules_spec gs.rules gs.name base store st' [] h hcur2
  simpa using hres

/-- Pass 2 does not change the lookup of a name outside the processed sets. -/
theorem pass2_preserve (sets : List GrammarSet) (st0 st2 : Store) (n : String)
    (h : pass2 sets st0 = some st2) (hn : n ∉ sets.map GrammarSet.name) :
    st2.get_rule_set n = st0.get_rule_set n := by
  induction sets generalizing st0 with
  | nil =>
    simp only [pass2, List.foldlM_nil, Option.pure_def, Option.some.injEq] at h
    rw [h]
  | cons set rest ih =>
    rw [pass2_cons] at h
    cases hc : set.link_into st0 with
    | none =>
      simp only [hc] at h
      exact absurd h (by simp)
    | some st0' =>
      simp only [hc] at h
      have hn1 : n ∉ rest.map GrammarSet.name := fun hmem => hn (by simp [hmem])
      have hn2 : n ≠ set.name := fun hmem => hn (by simp [hmem])
      rw [ih _ h hn1, link_into_preserve set st0 st0' n hc hn2]

/-- Pass 2 over grammar sets with pairwise distinct names rewrites each set's
entry from its pass-1 skeleton `base` to the linked form. -/
theorem pass2_mem (sets : List GrammarSet) (st0 st2 : Store)
    (h : pass2 sets st0 = some st2) (hnd : (sets.map GrammarSet.name).Nodup)
    (gs : GrammarSet) (hgs : gs ∈ sets) (base : List Rule)
    (hbase : st0.get_rule_set gs.name = some ⟨base⟩) :
    st2.get_rule_set gs.name =
      some ⟨withLinks base (gs.rules.filterMap GrammarRule.non_terminal)⟩ := by
  induction sets generalizing st0 with
  | nil => simp at hgs
  | cons set rest ih =>
    rw [pass2_cons] at h
    cases hc : set.link_into st0 with
    | none =>
      simp only [hc] at h
      exact absurd h (by simp)
    | some st0' =>
      simp only [hc] at h
      rcases List.mem_cons.mp hgs with rfl | hgs2
      · have hnot : gs.name ∉ rest.map GrammarSet.name := by
          simpa using (List.nodup_cons.mp hnd).1
        rw [pass2_preserve rest _ st2 gs.name h hnot]
        exact link_into_spec gs st0 st0' base hc hbase
      · have hgname : gs.name ≠ set.name := by
          have h1 : set.name ∉ rest.map GrammarSet.name := by
            simpa using (List.nodup_cons.mp hnd).1
          have h2 : gs.name ∈ rest.map GrammarSet.name :=
            List.mem_map.mpr ⟨gs, hgs2, rfl⟩
          exact fun hc2 => h1 (hc2 ▸ h2)
        have hbase2 : st0'.get_rule_set gs.name = some ⟨base⟩ := by
          rw [link_into_preserve set st0 st0' gs.name hc hgname, hbase]
        exact ih _ h (List.nodup_cons.mp hnd).2 hgs2 hbase2

/-- C1 amended: for every grammar description with pairwise distinct set
names that loads successfully, each stored set holds the pass-1 terminal
skeleton `base` of its grammar rules — no terminal step moved, reordered or
removed — with exactly one link step appended at the end of the rule at each
parallel-index position: the j-th non-terminal reference (in declaration
order) is appended to the j-th stored Rule, counting all rules. This equals
the declaring rule's position only when no terminal-only rule precedes it. -/
theorem c1_link_placement (g : Grammar) (st : Store)
    (hnd : (g.sets.map GrammarSet.name).Nodup) (hst : g.to_store = some st)
    (gs : GrammarSet) (hgs : gs ∈ g.sets) :
    ∃ base : List Rule,
      gs.rules.mapM GrammarRule.to_rule_without_non_terminal = some base ∧
      st.get_rule_set gs.name =
        some ⟨withLinks base (gs.rules.filterMap GrammarRule.non_terminal)⟩ := by
  unfold Grammar.to_store at hst
  cases hp1 : pass1 g.sets Store.new with
  | none =>
    simp only [hp1] at hst
    exact absurd hst (by simp)
  | some st1 =>
    simp only [hp1] at hst
    obtain ⟨rs, hrs, hget⟩ := pass1_mem g.sets Store.new st1 hp1 hnd gs hgs
    unfold GrammarSet.to_rule_set_without_non_terminal at hrs
    rcases hbm : gs.rules.mapM GrammarRule.to_rule_without_non_terminal with _ | base
    · rw [hbm] at hrs
      exact absurd hrs (by simp)
    · rw [hbm] at hrs
      simp only [Option.map_some', Option.some.injEq] at hrs
      refine ⟨base, rfl, ?_⟩
      have hbase : st1.get_rule_set gs.name = some ⟨base⟩ := by
        rw [hget, ← hrs]
      exact pass2_mem g.sets st1 st hst hnd gs hgs base hbase

/-- Witness for C1: the amended theorem applied to `g0`, whose second grammar
rule declares the non-terminal; the link lands on the first stored rule. -/
theorem c1_witness :
    ∃ base : List Rule,
      (⟨"S", [⟨["Number"], none⟩, ⟨[], some ("S")⟩]⟩ : GrammarSet).rules.mapM
          GrammarRule.to_rule_without_non_terminal = some base ∧
      store_g0.get_rule_set
          (⟨"S", [⟨["Number"], none⟩, ⟨[], some ("S")⟩]⟩ : GrammarSet).name =
        some ⟨withLinks base
          ((⟨"S", [⟨["Number"], none⟩, ⟨[], some ("S")⟩]⟩ : GrammarSet).rules.filterMap
            GrammarRule.non_terminal)⟩ :=
  c1_link_placement g0 store_g0 (by decide) (by decide)
    (⟨"S", [⟨["Number"], none⟩, ⟨[], some ("S")⟩]⟩ : GrammarSet) (by decide)
